import Mathlib

/-!
# Verification of the result-materialization core of a Snowflake SQL-over-HTTP client

Shallow embedding of the cell decoder (`src/cells.rs`), partition
projections (`src/partition.rs`) and the query-result / partition
retrieval operations (`src/statement.rs`).

Modelling conventions:
* Rust functions that can panic (`unwrap`, out-of-range arithmetic) are
  embedded as `Option`-returning functions; `none` models a panic.
* Rust `f64` values produced by `str::parse::<f64>()` are modelled as exact
  rationals (`Rat`) holding the decimal value denoted by the parsed string.
  The model accepts the finite-number grammar of Rust's float parser
  (optional sign, digits with optional fraction, optional decimal exponent)
  and rejects `inf`/`nan` spellings; rounding a decimal to the nearest
  binary double is not modelled — no claim below depends on it.
* Asynchronous streams are modelled as lists (the source fetches and yields
  partitions strictly in ascending index order, with look-ahead buffering
  that never reorders), and network I/O is modelled by an explicit fetch
  oracle `Nat → Except SnowflakeError StringTable` together with a count of
  oracle invocations where a claim is about the presence of I/O.
-/

-- The Batteries rational arithmetic operations are `@[irreducible]`, which
-- blocks evaluation of concrete decoder runs inside `decide`; re-open them.
set_option allowUnsafeReducibility true in
attribute [semireducible] Rat.mul Rat.add Rat.sub Rat.neg Rat.div Rat.inv

/-- One decimal digit `0`-`9`. -/
def isDecDigit (c : Char) : Bool :=
  48 ≤ c.toNat && c.toNat ≤ 57

/-- Numeric value of a list of decimal digits (most significant first). -/
def digitsVal (l : List Char) : Nat :=
  l.foldl (fun a c => a * 10 + (c.toNat - 48)) 0

/-- `i128::MIN` = -2^127. -/
def i128Min : Int := -(2 ^ 127)

/-- `i128::MAX` = 2^127 - 1. -/
def i128Max : Int := 2 ^ 127 - 1

/-- Embedding of Rust `str::parse::<i128>()`: an optional `+`/`-` sign
followed by one or more decimal digits, with the value required to fit in a
signed 128-bit integer; anything else is a parse error (`none`). -/
def parseI128 (s : String) : Option Int :=
  let chars := s.toList
  let (sign, digits) : Int × List Char :=
    match chars with
    | '+' :: rest => (1, rest)
    | '-' :: rest => (-1, rest)
    | rest => (1, rest)
  if digits.isEmpty then none
  else if digits.all isDecDigit then
    let v : Int := sign * (digitsVal digits : Int)
    if i128Min ≤ v ∧ v ≤ i128Max then some v else none
  else none

/-- Embedding of Rust `str::parse::<i64>()` (used by the date branch, where
the parsed value feeds `chrono::Duration::days`). -/
def parseI64 (s : String) : Option Int :=
  let chars := s.toList
  let (sign, digits) : Int × List Char :=
    match chars with
    | '+' :: rest => (1, rest)
    | '-' :: rest => (-1, rest)
    | rest => (1, rest)
  if digits.isEmpty then none
  else if digits.all isDecDigit then
    let v : Int := sign * (digitsVal digits : Int)
    if -(2 ^ 63) ≤ v ∧ v ≤ 2 ^ 63 - 1 then some v else none
  else none

/-- Helper for stripping the suffix `".0"` repeatedly from a reversed
character list: `trim_end_matches(".0")` removes every trailing occurrence
of the pattern. In reverse order the pattern reads `'0'` then `'.'`. -/
def stripDotZeroRev : List Char → List Char
  | '0' :: '.' :: rest => stripDotZeroRev rest
  | l => l

/-- Embedding of `value.trim_end_matches(".0")` from the fixed-point branch
of `RawCell::to_cell`. -/
def trimEndDotZero (s : String) : String :=
  ⟨(stripDotZeroRev s.toList.reverse).reverse⟩

/-- The finite-number grammar of Rust `str::parse::<f64>()`, evaluated
exactly over `Rat`: `sign? (digits ('.' digits*)? | '.' digits+) (('e'|'E')
sign? digits+)?`. Returns the exact decimal value (see module comment). -/
def parseF64 (s : String) : Option Rat :=
  let chars := s.toList
  let (sign, rest) : Rat × List Char :=
    match chars with
    | '+' :: r => (1, r)
    | '-' :: r => (-1, r)
    | r => (1, r)
  let intDigits := rest.takeWhile isDecDigit
  let rest₁ := rest.dropWhile isDecDigit
  let (fracDigits, rest₂) : List Char × List Char :=
    match rest₁ with
    | '.' :: r => (r.takeWhile isDecDigit, r.dropWhile isDecDigit)
    | r => ([], r)
  -- at least one digit must appear in the significand, and if there is no
  -- dot the characters after the integer digits must be the exponent
  if intDigits.isEmpty ∧ fracDigits.isEmpty then none
  else if rest₁ ≠ [] ∧ rest₁.head? ≠ some '.' ∧ rest₁.head? ≠ some 'e' ∧ rest₁.head? ≠ some 'E' then none
  else
    -- int.frac as an exact rational: all significand digits over 10^|frac|
    let mantissa : Rat :=
      mkRat (digitsVal (intDigits ++ fracDigits) : Int) (10 ^ fracDigits.length)
    match rest₂ with
    | [] => some (sign * mantissa)
    | e :: r =>
      if e = 'e' ∨ e = 'E' then
        let (eneg, edigits) : Bool × List Char :=
          match r with
          | '+' :: r₂ => (false, r₂)
          | '-' :: r₂ => (true, r₂)
          | r₂ => (false, r₂)
        if edigits.isEmpty ∨ ¬ edigits.all isDecDigit then none
        else
          let scale : Rat :=
            if eneg then mkRat 1 (10 ^ digitsVal edigits)
            else mkRat ((10 : Int) ^ digitsVal edigits) 1
          some (sign * mantissa * scale)
      else none

/-- Truncation toward zero of a rational (`f64::trunc`): the quotient of
numerator by denominator under T-division. -/
def ratTrunc (q : Rat) : Int :=
  q.num / (q.den : Int)

/-- `f64::fract`: the fractional part, with the sign of the input. -/
def ratFract (q : Rat) : Rat :=
  q - mkRat (ratTrunc q) 1

/-- Clamp an integer into `[lo, hi]`. -/
def intClamp (lo hi v : Int) : Int :=
  if v < lo then lo else if hi < v then hi else v

/-- Rust `as i64` on a float: truncate toward zero, saturating at the
bounds of `i64`. -/
def ratAsI64 (q : Rat) : Int :=
  intClamp (-(2 ^ 63)) (2 ^ 63 - 1) (ratTrunc q)

/-- Rust `as u32` on a float: truncate toward zero, saturating at `0` and
`u32::MAX`. -/
def ratAsU32 (q : Rat) : Nat :=
  (intClamp 0 (2 ^ 32 - 1) (ratTrunc q)).toNat

/-- Value of a hexadecimal digit, if the character is one (`0-9a-fA-F`). -/
def hexDigitVal (c : Char) : Option Nat :=
  if 48 ≤ c.toNat ∧ c.toNat ≤ 57 then some (c.toNat - 48)
  else if 97 ≤ c.toNat ∧ c.toNat ≤ 102 then some (c.toNat - 87)
  else if 65 ≤ c.toNat ∧ c.toNat ≤ 70 then some (c.toNat - 55)
  else none

/-- Byte-pair assembly for `hex::decode`: an even-length string of hex
digits becomes the byte list; anything else is an error (`none`). -/
def hexDecodeList : List Char → Option (List Nat)
  | [] => some []
  | [_] => none
  | hi :: lo :: rest => do
    let h ← hexDigitVal hi
    let l ← hexDigitVal lo
    let tail ← hexDecodeList rest
    pure ((h * 16 + l) :: tail)

/-- Embedding of `hex::decode` from the binary branch of
`RawCell::to_cell`. -/
def hexDecode (s : String) : Option (List Nat) :=
  hexDecodeList s.toList

/-- Embedding of Rust `str::parse::<bool>()`: exactly `"true"` or
`"false"`. -/
def parseBool (s : String) : Option Bool :=
  if s = "true" then some true
  else if s = "false" then some false
  else none

/-- The wire type tag of a column (`RawCell` in `src/cells.rs`). -/
inductive RawCell
  | Fixed
  | Real
  | Text
  | Binary
  | Boolean
  | Date
  | Time
  | TimestampLtz
  | TimestampNtz
  | TimestampTz
deriving DecidableEq, Repr

/-- The decoded cell (`Cell` in `src/cells.rs`). Dates are carried as the
day offset from 1970-01-01, times as (seconds-since-midnight, nanoseconds),
`TimestampLtz` as the nanosecond count handed to `Local.timestamp_nanos`,
and `TimestampNtz` as the (seconds, nanoseconds) pair handed to
`NaiveDateTime::from_timestamp_opt` — the `chrono` values are isomorphic to
these argument tuples for all in-range inputs. -/
inductive Cell
  | Null
  | Int (v : Int)
  | Float (v : Rat)
  | Varchar (s : String)
  | Binary (b : List Nat)
  | Boolean (b : Bool)
  | Date (days : Int)
  | Time (secs : Nat) (nanos : Nat)
  | TimestampLtz (nanos : Int)
  | TimestampNtz (secs : Int) (nanos : Nat)
deriving DecidableEq, Repr

/-- Embedding of `RawCell::to_cell` (`src/cells.rs`). `none` models a panic
(an `unwrap` of a failed parse, or a `chrono` out-of-range constructor).
The `chrono` seconds-range limits of `NaiveDate + Duration::days` and
`NaiveDateTime::from_timestamp_opt` (about ±262000 years) are not modelled;
no claim depends on them. -/
def RawCell.toCell (t : RawCell) (value : Option String) : Option Cell :=
  match value with
  | none => some Cell.Null
  | some v =>
    match t with
    | .Fixed =>
      match parseI128 (trimEndDotZero v) with
      | some n => some (Cell.Int n)
      | none => (parseF64 v).map Cell.Float
    | .Real => (parseF64 v).map Cell.Float
    | .Text => some (Cell.Varchar v)
    | .Binary => (hexDecode v).map Cell.Binary
    | .Boolean => (parseBool v).map Cell.Boolean
    | .Date => (parseI64 v).map Cell.Date
    | .Time =>
      (parseF64 v).bind fun q =>
        let secs := ratAsU32 q
        let nanos := ratAsU32 (ratFract q * 1000000000)
        -- from_num_seconds_from_midnight_opt: valid iff secs < 86400 and
        -- nanos < 2_000_000_000 (the extra second is leap-second room)
        if secs < 86400 ∧ nanos < 2000000000 then some (Cell.Time secs nanos) else none
    | .TimestampLtz =>
      (parseF64 v).map fun q =>
        Cell.TimestampLtz (ratAsI64 q + ratAsI64 (ratFract q * 1000000000))
    | .TimestampNtz =>
      (parseF64 v).bind fun q =>
        let nanos := ratAsU32 (ratFract q * 1000000000)
        if nanos < 2000000000 then some (Cell.TimestampNtz (ratAsI64 q) nanos) else none
    | .TimestampTz => some Cell.Null

/-- Lowercase hexadecimal digit character for a value below 16. -/
def hexDigitChar (n : Nat) : Char :=
  if n < 10 then Char.ofNat (48 + n) else Char.ofNat (87 + n)

/-- Embedding of `hex::encode` (lowercase, two digits per byte), used when
converting a `Binary` cell to JSON. -/
def hexEncode (b : List Nat) : String :=
  ⟨b.foldr (fun byte acc => hexDigitChar (byte / 16 % 16) :: hexDigitChar (byte % 16) :: acc) []⟩

/-- The shape of a `serde_json::Value` produced from one `Cell`. The
`chrono` date/time values serialize as ISO-8601 strings; they are modelled
as distinct constructors carrying the underlying value, since no claim
depends on the rendered text. `num` is a JSON number built from an `i64`,
`numF` one built from an `f64`. -/
inductive JsonValue
  | null
  | bool (b : Bool)
  | num (n : Int)
  | numF (q : Rat)
  | str (s : String)
  | date (days : Int)
  | time (secs : Nat) (nanos : Nat)
  | tsLtz (nanos : Int)
  | tsNtz (secs : Int) (nanos : Nat)
deriving DecidableEq, Repr

/-- Embedding of `impl From<Cell> for serde_json::Value` (`src/cells.rs`).
The `Int` branch evaluates `value.abs()`, which overflows at `i128::MIN`;
the overflow is modelled as a panic (`none`, checked-arithmetic semantics —
under release-mode wrapping the branch would instead misclassify the value
as small and truncate it to an `i64`). Every other branch is total. -/
def cellToJson : Cell → Option JsonValue
  | .Null => some .null
  | .Int v =>
    if v = i128Min then none
    else if v.natAbs < 2 ^ 53 then some (.num v)
    else some (.str (toString v))
  | .Float q => some (.numF q)
  | .Varchar s => some (.str s)
  | .Binary b => some (.str (hexEncode b))
  | .Boolean b => some (.bool b)
  | .Date d => some (.date d)
  | .Time s n => some (.time s n)
  | .TimestampLtz n => some (.tsLtz n)
  | .TimestampNtz s n => some (.tsNtz s n)

/-- Per-column descriptor (`ColumnType` in `src/statement.rs`). -/
structure ColumnType where
  name : String
  database : String
  schema : String
  table : String
  precision : Option Nat
  byteLength : Option Nat
  dataType : RawCell
  scale : Option Int
  nullable : Bool
deriving DecidableEq, Repr

/-- `WireStatementMetaData` (`src/statement.rs`): row count, column types,
and the partition list, of which only the length is consumed. -/
structure WireStatementMetaData where
  numRows : Nat
  rowType : List ColumnType
  partitionInfo : List Unit
deriving DecidableEq, Repr

/-- One raw page of rows (`StringTable` in `src/partition.rs`). -/
abbrev StringTable := List (List (Option String))

/-- `Partition` (`src/partition.rs`). -/
structure Partition where
  metaData : WireStatementMetaData
  data : StringTable
  index : Nat
deriving DecidableEq, Repr

/-- `Partition::num_rows`: the length of the raw page, not the metadata
count. -/
def Partition.numRows (p : Partition) : Nat :=
  p.data.length

/-- `Partition::cells`: decode every row against the shared column list by
position (`row.iter().zip(&row_type)`). -/
def Partition.cells (p : Partition) : List (List (Option Cell)) :=
  p.data.map fun row =>
    (row.zip p.metaData.rowType).map fun vc => vc.2.dataType.toCell vc.1

/-- `Partition::json_table`: the cell matrix pushed through the JSON
conversion. -/
def Partition.jsonTable (p : Partition) : List (List (Option JsonValue)) :=
  p.cells.map fun row => row.map fun c => c.bind cellToJson

/-- Insertion into a `serde_json::Map` with the `preserve_order` feature
(an `IndexMap`): inserting an existing key replaces its value in place,
otherwise the pair is appended.

Modelled from the spec: the map type behind `serde_json::Value::Object` is
selected by a Cargo feature flag in the crate manifest, which is not part
of the sources; the spec states that object key order is column declaration
order and that the last value for a duplicate key wins, which is the
`preserve_order` (insertion-ordered) behavior. -/
def insertOrdered {α : Type} (m : List (String × α)) (k : String) (v : α) :
    List (String × α) :=
  if m.any (fun kv => kv.1 = k) then
    m.map fun kv => if kv.1 = k then (k, v) else kv
  else m ++ [(k, v)]

/-- `collect()` of a sequence of key-value pairs into the ordered map. -/
def collectObj {α : Type} (l : List (String × α)) : List (String × α) :=
  l.foldl (fun m kv => insertOrdered m kv.1 kv.2) []

/-- Placeholder column used to totalize the `row_type[i]` indexing of
`json_objects`; rows produced by `cells` are never longer than `row_type`,
so it is never reached. -/
def defaultColumnType : ColumnType :=
  ⟨"", "", "", "", none, none, .Fixed, none, false⟩

/-- `Partition::json_objects`: each decoded row becomes an object keyed by
`row_type[i].name` for the cell at position `i`. -/
def Partition.jsonObjects (p : Partition) :
    List (List (String × Option JsonValue)) :=
  p.jsonTable.map fun row =>
    collectObj (row.enum.map fun ic =>
      ((p.metaData.rowType.getD ic.1 defaultColumnType).name, ic.2))

/-- The error taxonomy (`SnowflakeError` in `src/errors.rs`); payloads that
are foreign library types are dropped. -/
inductive SnowflakeError
  | Token
  | Request
  | ServerError (code : String) (message : String)
  | JSONError
  | UnsupportedFeature (feature : String)
  | MultiplePartitions
  | InvalidHeaderValue
deriving DecidableEq, Repr

/-- `QueryResponse` (`src/statement.rs`): metadata, the inline first page,
and the retained status URL (the `Statement` handle only feeds the HTTP
client and is abstracted into the fetch oracle). -/
structure QueryResponse where
  resultSetMetaData : WireStatementMetaData
  data : StringTable
  statementStatusUrl : String
deriving DecidableEq, Repr

/-- `QueryResponse::num_rows`. -/
def QueryResponse.numRows (resp : QueryResponse) : Nat :=
  resp.resultSetMetaData.numRows

/-- `QueryResponse::num_partitions`: the length of `partitionInfo`. -/
def QueryResponse.numPartitions (resp : QueryResponse) : Nat :=
  resp.resultSetMetaData.partitionInfo.length

/-- `QueryResponse::only_partition`: a pure accessor; no fetch oracle is
involved, so it can perform no I/O. -/
def QueryResponse.onlyPartition (resp : QueryResponse) :
    Except SnowflakeError Partition :=
  if resp.numPartitions ≠ 1 then .error .MultiplePartitions
  else .ok ⟨resp.resultSetMetaData, resp.data, 0⟩

/-- The network round-trip performed for one partition index beyond 0: GET
on the status URL, envelope decoding, `into_result`. -/
abbrev Fetcher := Nat → Except SnowflakeError StringTable

/-- `QueryResponse::partition`: index 0 is answered from the inline page,
an out-of-range index yields `Ok(None)`, anything else goes through the
fetch oracle. The second component counts oracle invocations (I/O). -/
def QueryResponse.partitionFetch (resp : QueryResponse) (fetch : Fetcher)
    (index : Nat) : Except SnowflakeError (Option Partition) × Nat :=
  if index = 0 then
    (.ok (some ⟨resp.resultSetMetaData, resp.data, index⟩), 0)
  else if resp.numPartitions ≤ index then
    (.ok none, 0)
  else
    match fetch index with
    | .ok d => (.ok (some ⟨resp.resultSetMetaData, d, index⟩), 1)
    | .error e => (.error e, 1)

/-- The `partitions()` stream before unwrapping, as the ordered list of
per-index outcomes; the first error (in index order) aborts the collection,
as `try_collect` does. -/
def seqPartitions (resp : QueryResponse) (fetch : Fetcher) :
    List Nat → Except SnowflakeError (List (Option Partition))
  | [] => .ok []
  | i :: rest =>
    match (resp.partitionFetch fetch i).1 with
    | .error e => .error e
    | .ok p => (seqPartitions resp fetch rest).map (p :: ·)

/-- `QueryResponse::partitions` drained into a list (`try_collect`). The
stream unwraps the `Option` (provably `some` for every in-range index, see
`partitionFetch_isSome`); the unwrap is modelled by `filterMap id`. -/
def QueryResponse.partitionsList (resp : QueryResponse) (fetch : Fetcher) :
    Except SnowflakeError (List Partition) :=
  (seqPartitions resp fetch (List.range resp.numPartitions)).map
    (List.filterMap id)

/-- `QueryResponse::concat_partitions`: drain the partition stream and
append the raw pages in order into one synthetic partition at index 0. -/
def QueryResponse.concatPartitions (resp : QueryResponse) (fetch : Fetcher) :
    Except SnowflakeError Partition :=
  (resp.partitionsList fetch).map fun ps =>
    ⟨resp.resultSetMetaData, (ps.map Partition.data).flatten, 0⟩

/-- `QueryResponse::rows` drained into a list: the per-partition decoded
row lists, flattened in partition order. -/
def QueryResponse.rowsList (resp : QueryResponse) (fetch : Fetcher) :
    Except SnowflakeError (List (List (Option Cell))) :=
  (resp.partitionsList fetch).map fun ps =>
    (ps.map Partition.cells).flatten

/-- The decoding the specification claims for `timestamp_ltz` wire values:
the split used by the `timestamp_ntz` branch — integer part as whole
seconds, fractional part times 1e9 as nanoseconds — expressed as the total
nanosecond offset of the resulting instant from the epoch. -/
def ltzClaimedTotalNanos (q : Rat) : Int :=
  ratAsI64 q * 1000000000 + (ratAsU32 (ratFract q * 1000000000) : Int)

set_option maxRecDepth 20000

example : RawCell.toCell .Fixed (some "1") = some (Cell.Int 1) := by decide
example : RawCell.toCell .Fixed (some "1.0") = some (Cell.Int 1) := by decide
example : RawCell.toCell .Fixed (some "1.1") = some (Cell.Float (mkRat 11 10)) := by decide
example : RawCell.toCell .TimestampLtz (some "2.5") =
    some (Cell.TimestampLtz 500000002) := by decide
example : RawCell.toCell .TimestampNtz (some "2.5") =
    some (Cell.TimestampNtz 2 500000000) := by decide

/-- Claim C8: for every column type tag, decoding a `None` (SQL NULL) wire
value yields the `Null` cell, without panicking, regardless of the tag. -/
theorem null_wire_decodes_to_null :
    ∀ t : RawCell, t.toCell none = some Cell.Null := by
  intro t
  cases t <;> rfl

/-- Claim C9: every wire value — `None` or `Some` of any string — decoded
under the timestamp-with-zone tag yields the `Null` cell. -/
theorem timestamp_tz_always_null :
    ∀ v : Option String, RawCell.TimestampTz.toCell v = some Cell.Null := by
  intro v
  cases v <;> rfl

/-- Claim C2 (code bug): under the `timestamp_ltz` tag the code computes
`Local.timestamp_nanos(secs as i64 + (fract * 1e9) as i64)` — the whole
*seconds* are added to the *nanoseconds* — so the wire value `"2.5"`
produces the instant 500000002 ns after the epoch, while the claimed
decoding (the `timestamp_ntz` split: seconds and fractional nanoseconds)
places it at 2500000000 ns after the epoch. -/
theorem ltz_seconds_added_to_nanos_bug :
    parseF64 "2.5" = some (mkRat 5 2) ∧
    RawCell.toCell .TimestampLtz (some "2.5") =
      some (Cell.TimestampLtz 500000002) ∧
    ltzClaimedTotalNanos (mkRat 5 2) = 2500000000 ∧
    (500000002 : Int) ≠ 2500000000 := by
  refine ⟨by decide, by decide, by decide, by decide⟩

/-- Claim C3 (counterexample): with a partition count of 0 and index 0, the
fetch operation does not return the "no such partition" outcome — it
returns the inline partition 0 (the `index == 0` branch precedes the bounds
check). -/
theorem partition_index_zero_of_empty_is_inline :
    (QueryResponse.mk ⟨0, [], []⟩ [] "url").partitionFetch
        (fun _ => .ok []) 0 =
      (.ok (some ⟨⟨0, [], []⟩, [], 0⟩), 0) ∧
    (QueryResponse.mk ⟨0, [], []⟩ [] "url").partitionFetch
        (fun _ => .ok []) 0 ≠
      (.ok none, 0) := by
  refine ⟨rfl, by simp [QueryResponse.partitionFetch]⟩

/-- Claim C3 (amended): for every partition index `i ≥ 1` with `i` at or
beyond the partition count, the fetch returns `Ok(None)` — no partition
data, no failure — and invokes the fetch oracle zero times; index 0 is the
exception, where the inline partition is returned even when the count
is 0. -/
theorem partition_out_of_range_returns_none
    (resp : QueryResponse) (fetch : Fetcher) (i : Nat)
    (h1 : 1 ≤ i) (h2 : resp.numPartitions ≤ i) :
    resp.partitionFetch fetch i = (.ok none, 0) := by
  unfold QueryResponse.partitionFetch
  rw [if_neg (by omega), if_pos h2]

/-- Witness for `partition_out_of_range_returns_none` at a concrete
single-partition response and index 1. -/
theorem partition_out_of_range_witness :
    (QueryResponse.mk ⟨1, [], [()]⟩ [[some "a"]] "url").partitionFetch
        (fun _ => .ok []) 1 =
      (.ok none, 0) :=
  partition_out_of_range_returns_none _ _ 1 (by decide) (by decide)

/-- Claim C5: `only_partition()` succeeds — with partition 0 built from the
inline page — exactly when the partition count is 1, and otherwise fails
with the `MultiplePartitions` cardinality error; it takes no fetch oracle,
so it can perform no I/O. -/
theorem only_partition_iff_one (resp : QueryResponse) :
    (resp.numPartitions = 1 →
      resp.onlyPartition = .ok ⟨resp.resultSetMetaData, resp.data, 0⟩) ∧
    (resp.numPartitions ≠ 1 →
      resp.onlyPartition = .error .MultiplePartitions) ∧
    ((∃ p, resp.onlyPartition = .ok p) ↔ resp.numPartitions = 1) := by
  unfold QueryResponse.onlyPartition
  refine ⟨fun h => by simp [h], fun h => by simp [h], ?_⟩
  constructor
  · rintro ⟨p, hp⟩
    by_contra h
    simp [h] at hp
  · intro h
    exact ⟨⟨resp.resultSetMetaData, resp.data, 0⟩, by simp [h]⟩

/-- Witness for `only_partition_iff_one`: a one-partition response succeeds
and a two-partition response fails with the cardinality error. -/
theorem only_partition_witness :
    (QueryResponse.mk ⟨3, [], [()]⟩ [[some "a"]] "url").onlyPartition =
      .ok ⟨⟨3, [], [()]⟩, [[some "a"]], 0⟩ ∧
    (QueryResponse.mk ⟨3, [], [(), ()]⟩ [[some "a"]] "url").onlyPartition =
      .error .MultiplePartitions :=
  ⟨(only_partition_iff_one _).1 rfl, (only_partition_iff_one _).2.1 (by decide)⟩

/-- Claim C1: a fixed-point wire value whose text (with every trailing
`".0"` stripped, as `trim_end_matches` does) parses as an `i128` decodes to
that integer; when the integer parse fails, the value decodes to the float
parse of the original text; in particular `"1"` and `"1.0"` give `Int 1`
and `"1.1"` gives `Float 1.1`. -/
theorem fixed_decoding_int_or_float (s : String) :
    (∀ n, parseI128 (trimEndDotZero s) = some n →
      RawCell.toCell .Fixed (some s) = some (Cell.Int n)) ∧
    (parseI128 (trimEndDotZero s) = none →
      ∀ q, parseF64 s = some q →
        RawCell.toCell .Fixed (some s) = some (Cell.Float q)) ∧
    RawCell.toCell .Fixed (some "1") = some (Cell.Int 1) ∧
    RawCell.toCell .Fixed (some "1.0") = some (Cell.Int 1) ∧
    RawCell.toCell .Fixed (some "1.1") = some (Cell.Float (mkRat 11 10)) := by
  refine ⟨?_, ?_, by decide, by decide, by decide⟩
  · intro n h
    simp [RawCell.toCell, h]
  · intro h q hq
    simp [RawCell.toCell, h, hq]

/-- Witness for `fixed_decoding_int_or_float`: both branches exercised at
`"42"` (integer parse succeeds) and `"4.25"` (integer parse fails, float
parse succeeds). -/
theorem fixed_decoding_witness :
    RawCell.toCell .Fixed (some "42") = some (Cell.Int 42) ∧
    RawCell.toCell .Fixed (some "4.25") = some (Cell.Float (mkRat 17 4)) :=
  ⟨(fixed_decoding_int_or_float "42").1 42 (by decide),
   (fixed_decoding_int_or_float "4.25").2.1 (by decide) (mkRat 17 4) (by decide)⟩

/-- Claim C4 (counterexample): at `x = i128::MIN` the JSON conversion of
`Int(x)` evaluates `value.abs()`, which overflows; the conversion panics
(checked-arithmetic semantics) instead of yielding the decimal string the
claim requires for every `|x| ≥ 2^53`. -/
theorem int_to_json_min_counterexample :
    cellToJson (Cell.Int i128Min) = none ∧
    cellToJson (Cell.Int i128Min) ≠ some (JsonValue.str (toString i128Min)) := by
  refine ⟨rfl, by simp [cellToJson]⟩

/-- Claim C4 (amended): for every 128-bit signed integer `x` other than
`i128::MIN` (where `value.abs()` overflows), `Int(x)` converts to the JSON
number `x` when `|x| < 2^53` and to the decimal string rendering of `x`
when `|x| ≥ 2^53`; the boundary values `2^53 - 1` and `2^53` map to a
number and a string respectively. -/
theorem int_to_json_split (x : Int)
    (hlo : i128Min ≤ x) (hhi : x ≤ i128Max) (hmin : x ≠ i128Min) :
    (x.natAbs < 2 ^ 53 → cellToJson (Cell.Int x) = some (.num x)) ∧
    (2 ^ 53 ≤ x.natAbs → cellToJson (Cell.Int x) = some (.str (toString x))) ∧
    cellToJson (Cell.Int (2 ^ 53 - 1)) = some (.num (2 ^ 53 - 1)) ∧
    cellToJson (Cell.Int (2 ^ 53)) = some (.str (toString (2 ^ 53 : Int))) := by
  refine ⟨?_, ?_, by decide, by decide⟩
  · intro h
    simp [cellToJson, hmin, h]
    omega
  · intro h
    simp [cellToJson, hmin, Nat.not_lt.mpr h]
    omega

/-- Witness for `int_to_json_split` at the boundary `x = 2^53`. -/
theorem int_to_json_witness :
    cellToJson (Cell.Int (2 ^ 53)) = some (.str (toString (2 ^ 53 : Int))) :=
  (int_to_json_split (2 ^ 53) (by decide) (by decide) (by decide)).2.1 (by decide)

/-- The cell variant each (tag, wire value) pair may legitimately produce:
`None` always gives `Null`; each tag's `Some` branch gives only its own
variant, with `Fixed` allowed both `Int` and `Float` and `TimestampTz`
pinned to `Null`. -/
def variantMatchesTag : RawCell → Option String → Cell → Prop
  | _, none, c => c = Cell.Null
  | .Fixed, some _, c => (∃ n, c = Cell.Int n) ∨ (∃ q, c = Cell.Float q)
  | .Real, some _, c => ∃ q, c = Cell.Float q
  | .Text, some _, c => ∃ s, c = Cell.Varchar s
  | .Binary, some _, c => ∃ b, c = Cell.Binary b
  | .Boolean, some _, c => ∃ b, c = Cell.Boolean b
  | .Date, some _, c => ∃ d, c = Cell.Date d
  | .Time, some _, c => ∃ s n, c = Cell.Time s n
  | .TimestampLtz, some _, c => ∃ n, c = Cell.TimestampLtz n
  | .TimestampNtz, some _, c => ∃ s n, c = Cell.TimestampNtz s n
  | .TimestampTz, some _, c => c = Cell.Null

/-- Claim C10: whenever decoding returns at all, the returned cell variant
corresponds to the column's type tag as in `variantMatchesTag` — no tag
ever produces a variant belonging to a different tag. -/
theorem decoded_variant_matches_tag (t : RawCell) (v : Option String)
    (c : Cell) (h : t.toCell v = some c) : variantMatchesTag t v c := by
  cases v with
  | none =>
    cases t <;>
      simp only [RawCell.toCell] at h <;>
      simp_all [variantMatchesTag]
  | some s =>
    cases t <;> simp only [RawCell.toCell] at h
    case Fixed =>
      rcases hp : parseI128 (trimEndDotZero s) with _ | n <;> rw [hp] at h
      · simp only [Option.map_eq_some'] at h
        obtain ⟨q, _, hq⟩ := h
        exact Or.inr ⟨q, hq.symm⟩
      · exact Or.inl ⟨n, by simpa using h.symm⟩
    case Real =>
      simp only [Option.map_eq_some'] at h
      obtain ⟨q, _, hq⟩ := h
      exact ⟨q, hq.symm⟩
    case Text =>
      exact ⟨s, by simpa using h.symm⟩
    case Binary =>
      simp only [Option.map_eq_some'] at h
      obtain ⟨b, _, hb⟩ := h
      exact ⟨b, hb.symm⟩
    case Boolean =>
      simp only [Option.map_eq_some'] at h
      obtain ⟨b, _, hb⟩ := h
      exact ⟨b, hb.symm⟩
    case Date =>
      simp only [Option.map_eq_some'] at h
      obtain ⟨d, _, hd⟩ := h
      exact ⟨d, hd.symm⟩
    case Time =>
      simp only [Option.bind_eq_some] at h
      obtain ⟨q, _, hq⟩ := h
      split at hq
      · exact ⟨_, _, by simpa using hq.symm⟩
      · simp at hq
    case TimestampLtz =>
      simp only [Option.map_eq_some'] at h
      obtain ⟨q, _, hq⟩ := h
      exact ⟨_, hq.symm⟩
    case TimestampNtz =>
      simp only [Option.bind_eq_some] at h
      obtain ⟨q, _, hq⟩ := h
      split at hq
      · exact ⟨_, _, by simpa using hq.symm⟩
      · simp at hq
    case TimestampTz =>
      simpa using h.symm

/-- Witness for `decoded_variant_matches_tag`: the fixed tag at `"1"`
produces the `Int` variant. -/
theorem decoded_variant_witness :
    variantMatchesTag .Fixed (some "1") (Cell.Int 1) :=
  decoded_variant_matches_tag .Fixed (some "1") (Cell.Int 1) (by decide)


/-- First-match association lookup in an ordered key-value list (the
semantics of looking a key up in the JSON object). -/
def lookupK {α : Type} : List (String × α) → String → Option α
  | [], _ => none
  | kv :: rest, k => if kv.1 = k then some kv.2 else lookupK rest k

/-- The value of the *last* pair carrying a given key, if any — the
"rightmost column wins" reading of a duplicate-keyed column list. -/
def lastAssoc {α : Type} : List (String × α) → String → Option α
  | [], _ => none
  | kv :: rest, k =>
    match lastAssoc rest k with
    | some w => some w
    | none => if kv.1 = k then some kv.2 else none

/-- Replacing the value at a key leaves lookups of other keys unchanged. -/
theorem lookupK_replace_ne {α : Type} (m : List (String × α)) (k' k : String)
    (v : α) (hne : k ≠ k') :
    lookupK (m.map fun kv => if kv.1 = k' then (k', v) else kv) k
      = lookupK m k := by
  induction m with
  | nil => rfl
  | cons a m ih =>
    simp only [List.map_cons, lookupK]
    by_cases ha : a.1 = k'
    · simp [ha, Ne.symm hne, ih]
    · simp [ha, ih]

/-- Replacing the value at a key that occurs in the map makes lookups of
that key return the new value. -/
theorem lookupK_replace_eq {α : Type} (m : List (String × α)) (k' : String)
    (v : α) (hmem : m.any (fun kv => kv.1 = k') = true) :
    lookupK (m.map fun kv => if kv.1 = k' then (k', v) else kv) k'
      = some v := by
  induction m with
  | nil => simp at hmem
  | cons a m ih =>
    simp only [List.map_cons, lookupK]
    by_cases ha : a.1 = k'
    · simp [ha]
    · have hm : m.any (fun kv => kv.1 = k') = true := by
        simpa [List.any_cons, ha] using hmem
      simp [ha, ih hm]

/-- Appending a pair with a key absent from the map: lookups of that key
find the appended value, others are unchanged. -/
theorem lookupK_append_notin {α : Type} (m : List (String × α)) (k' k : String)
    (v : α) (habs : m.any (fun kv => kv.1 = k') = false) :
    lookupK (m ++ [(k', v)]) k = if k = k' then some v else lookupK m k := by
  induction m with
  | nil =>
    by_cases h : k = k' <;> simp [lookupK, h, Ne.symm]
  | cons a m ih =>
    have ha : ¬ (a.1 = k') := by
      intro h
      simp [List.any_cons, h] at habs
    have htail : m.any (fun kv => kv.1 = k') = false := by
      simpa [List.any_cons, ha] using habs
    simp only [List.cons_append, lookupK]
    by_cases hk : a.1 = k
    · have : ¬ (k = k') := fun h => ha (hk.trans h)
      simp [hk, this]
    · simp [hk, ih htail]

/-- Lookup after one ordered-map insertion: the inserted key now maps to
the inserted value, all other keys are untouched. -/
theorem lookupK_insertOrdered {α : Type} (m : List (String × α))
    (k' k : String) (v : α) :
    lookupK (insertOrdered m k' v) k
      = if k = k' then some v else lookupK m k := by
  unfold insertOrdered
  by_cases hmem : m.any (fun kv => kv.1 = k') = true
  · rw [if_pos hmem]
    by_cases hk : k = k'
    · subst hk
      simp [lookupK_replace_eq m k v hmem]
    · simp [hk, lookupK_replace_ne m k' k v hk]
  · have habs : m.any (fun kv => kv.1 = k') = false := by
      cases h2 : m.any (fun kv => kv.1 = k')
      · rfl
      · exact absurd h2 hmem
    rw [if_neg hmem, lookupK_append_notin m k' k v habs]

/-- Lookup in the object collected from a pair sequence returns the value
of the last pair with the looked-up key, falling back to the accumulator
for keys the sequence does not mention. -/
theorem lookupK_foldl_insert {α : Type} (pairs : List (String × α)) :
    ∀ (m : List (String × α)) (k : String),
      lookupK (List.foldl (fun acc kv => insertOrdered acc kv.1 kv.2) m pairs) k
        = match lastAssoc pairs k with
          | some w => some w
          | none => lookupK m k := by
  induction pairs with
  | nil => intro m k; rfl
  | cons kv rest ih =>
    intro m k
    rw [List.foldl_cons, ih]
    simp only [lastAssoc]
    rcases hrest : lastAssoc rest k with _ | w
    · rw [lookupK_insertOrdered]
      by_cases hk : k = kv.1
      · simp [hk]
      · simp [hk, Ne.symm hk]
    · rfl

/-- Inserting a key that is already present does not change the key list. -/
theorem keys_insertOrdered_mem {α : Type} (m : List (String × α))
    (k' : String) (v : α) (hmem : m.any (fun kv => kv.1 = k') = true) :
    (insertOrdered m k' v).map Prod.fst = m.map Prod.fst := by
  unfold insertOrdered
  rw [if_pos hmem, List.map_map]
  refine List.map_congr_left fun kv _ => ?_
  by_cases h : kv.1 = k'
  · simp [h]
  · simp [h]

/-- Inserting an absent key appends it to the key list. -/
theorem keys_insertOrdered_notmem {α : Type} (m : List (String × α))
    (k' : String) (v : α) (habs : m.any (fun kv => kv.1 = k') = false) :
    (insertOrdered m k' v).map Prod.fst = m.map Prod.fst ++ [k'] := by
  unfold insertOrdered
  rw [if_neg (by simp [habs]), List.map_append]
  rfl

/-- When the accumulated keys and the incoming pair keys are jointly
duplicate-free, folding the ordered-map insertion appends the pair keys in
order. -/
theorem keys_foldl_insert {α : Type} (pairs : List (String × α)) :
    ∀ m : List (String × α),
      (m.map Prod.fst ++ pairs.map Prod.fst).Nodup →
      (List.foldl (fun acc kv => insertOrdered acc kv.1 kv.2) m pairs).map Prod.fst
        = m.map Prod.fst ++ pairs.map Prod.fst := by
  induction pairs with
  | nil => intro m _; simp
  | cons kv rest ih =>
    intro m hnd
    have hnd₁ : (m.map Prod.fst ++ (kv.1 :: rest.map Prod.fst)).Nodup := by
      simpa using hnd
    have hnd₂ : ((m.map Prod.fst ++ [kv.1]) ++ rest.map Prod.fst).Nodup := by
      rw [← List.append_cons]
      exact hnd₁
    have hnotmem : kv.1 ∉ m.map Prod.fst := fun hmem =>
      (List.nodup_append.mp hnd₁).2.2 hmem (List.mem_cons_self _ _)
    have habs : m.any (fun p => p.1 = kv.1) = false := by
      cases h2 : m.any (fun p => p.1 = kv.1) with
      | false => rfl
      | true =>
        rcases List.any_eq_true.mp h2 with ⟨p, hp, hpk⟩
        exact absurd (List.mem_map.mpr ⟨p, hp, of_decide_eq_true hpk⟩) hnotmem
    have hkeys := keys_insertOrdered_notmem m kv.1 kv.2 habs
    have hstep := ih (insertOrdered m kv.1 kv.2) (by rw [hkeys]; exact hnd₂)
    rw [List.foldl_cons, hstep, hkeys]
    simp

/-- Rows of the decoded JSON table are never longer than the column list:
decoding zips each raw row against `row_type`. -/
theorem jsonTable_row_length (p : Partition) (r : Nat)
    (row : List (Option JsonValue)) (h : p.jsonTable[r]? = some row) :
    row.length ≤ p.metaData.rowType.length := by
  unfold Partition.jsonTable Partition.cells at h
  rw [List.getElem?_map, List.getElem?_map] at h
  rcases hraw : p.data[r]? with _ | raw
  · rw [hraw] at h
    simp at h
  · rw [hraw] at h
    simp only [Option.map_some'] at h
    have hrow := Option.some.inj h
    rw [← hrow]
    simp [List.length_zip]

/-- The keys produced by enumerating a decoded row against the column list
are exactly the first `row.length` column names, in declaration order. -/
theorem enum_names_fst (rt : List ColumnType) (row : List (Option JsonValue))
    (hlen : row.length ≤ rt.length) :
    (row.enum.map fun ic =>
        ((rt.getD ic.1 defaultColumnType).name, ic.2)).map Prod.fst
      = (rt.map ColumnType.name).take row.length := by
  apply List.ext_getElem
  · simp only [List.length_map, List.enum_length, List.length_take]
    omega
  · intro n h₁ h₂
    have hn : n < row.length := by
      simpa [List.enum_length] using h₁
    have hnrt : n < rt.length := lt_of_lt_of_le hn hlen
    simp only [List.getElem_map, List.getElem_take, List.getElem_enum]
    rw [List.getD_eq_getElem rt defaultColumnType hnrt]

/-- Claim C7: each row's object has the column names as keys in column
declaration order (stated for duplicate-free name lists), and looking any
key up returns the value contributed by the *last* (rightmost) column with
that name — the last value for a duplicate key wins. -/
theorem json_objects_key_order_last_wins (p : Partition) (r : Nat)
    (row : List (Option JsonValue)) (pairs : List (String × Option JsonValue))
    (hrow : p.jsonTable[r]? = some row)
    (hpairs : pairs = row.enum.map fun ic =>
      ((p.metaData.rowType.getD ic.1 defaultColumnType).name, ic.2)) :
    p.jsonObjects[r]? = some (collectObj pairs) ∧
    ((p.metaData.rowType.map ColumnType.name).Nodup →
      (collectObj pairs).map Prod.fst
        = (p.metaData.rowType.map ColumnType.name).take row.length) ∧
    (∀ k, lookupK (collectObj pairs) k = lastAssoc pairs k) := by
  subst hpairs
  refine ⟨?_, ?_, ?_⟩
  · unfold Partition.jsonObjects
    rw [List.getElem?_map, hrow]
    rfl
  · intro hnd
    have hlen := jsonTable_row_length p r row hrow
    have hfst := enum_names_fst p.metaData.rowType row hlen
    have hnd' : ((row.enum.map fun ic =>
        ((p.metaData.rowType.getD ic.1 defaultColumnType).name, ic.2)).map
          Prod.fst).Nodup := by
      rw [hfst]
      exact List.Nodup.sublist (List.take_sublist _ _) hnd
    unfold collectObj
    rw [keys_foldl_insert _ [] (by simpa using hnd'), hfst]
    simp
  · intro k
    unfold collectObj
    rw [lookupK_foldl_insert]
    cases h : lastAssoc (row.enum.map fun ic =>
      ((p.metaData.rowType.getD ic.1 defaultColumnType).name, ic.2)) k <;>
      simp [lookupK]

/-- Witness for `json_objects_key_order_last_wins`: a partition with two
columns both named `"A"`; the collected object is reported by the theorem
and lookup of `"A"` agrees with the last-column value. -/
theorem json_objects_witness :
    (Partition.mk
        ⟨1, [⟨"A", "", "", "", none, none, .Text, none, false⟩,
             ⟨"A", "", "", "", none, none, .Text, none, false⟩], []⟩
        [[some "x", some "y"]] 0).jsonObjects[0]?
      = some (collectObj
          [("A", some (JsonValue.str "x")), ("A", some (JsonValue.str "y"))]) ∧
    lookupK (collectObj
        [("A", some (JsonValue.str "x")), ("A", some (JsonValue.str "y"))]) "A"
      = lastAssoc
          [("A", some (JsonValue.str "x")), ("A", some (JsonValue.str "y"))] "A" :=
  ⟨(json_objects_key_order_last_wins _ 0
      [some (JsonValue.str "x"), some (JsonValue.str "y")] _ (by rfl) (by rfl)).1,
   (json_objects_key_order_last_wins
      ⟨⟨1, [⟨"A", "", "", "", none, none, .Text, none, false⟩,
            ⟨"A", "", "", "", none, none, .Text, none, false⟩], []⟩,
       [[some "x", some "y"]], 0⟩ 0
      [some (JsonValue.str "x"), some (JsonValue.str "y")] _ (by rfl) (by rfl)).2.2 "A"⟩

/-- The partition the retrieval protocol produces at index `i` when every
needed fetch succeeds: the inline page at 0, the fetched page elsewhere. -/
def partAt (resp : QueryResponse) (t : Nat → StringTable) (i : Nat) :
    Partition :=
  if i = 0 then ⟨resp.resultSetMetaData, resp.data, 0⟩
  else ⟨resp.resultSetMetaData, t i, i⟩

/-- When the fetch oracle succeeds on every in-range index beyond 0, each
in-range `partition(i)` call succeeds with `partAt` and performs I/O
exactly for `i ≠ 0`. -/
theorem partitionFetch_ok (resp : QueryResponse) (fetch : Fetcher)
    (t : Nat → StringTable)
    (ht : ∀ i, 1 ≤ i → i < resp.numPartitions → fetch i = .ok (t i))
    (i : Nat) (hi : i < resp.numPartitions) :
    resp.partitionFetch fetch i
      = (.ok (some (partAt resp t i)), if i = 0 then 0 else 1) := by
  unfold QueryResponse.partitionFetch partAt
  by_cases h0 : i = 0
  · subst h0
    simp
  · rw [if_neg h0, if_neg (by omega), ht i (by omega) hi, if_neg h0, if_neg h0]

/-- Sequencing the per-index outcomes over a list of in-range indices
collects exactly the `partAt` partitions (all `some`, no error). -/
theorem seqPartitions_ok (resp : QueryResponse) (fetch : Fetcher)
    (t : Nat → StringTable)
    (ht : ∀ i, 1 ≤ i → i < resp.numPartitions → fetch i = .ok (t i)) :
    ∀ l : List Nat, (∀ i ∈ l, i < resp.numPartitions) →
      seqPartitions resp fetch l = .ok (l.map fun i => some (partAt resp t i)) := by
  intro l
  induction l with
  | nil => intro _; rfl
  | cons i rest ih =>
    intro hl
    unfold seqPartitions
    rw [partitionFetch_ok resp fetch t ht i (hl i (List.mem_cons_self i rest))]
    rw [ih fun j hj => hl j (List.mem_cons_of_mem i hj)]
    rfl

/-- Decoding a concatenated page equals concatenating the per-page
decodings (the decode is row-wise and uses only the shared metadata). -/
theorem cells_concat (meta : WireStatementMetaData) (ds : List StringTable) :
    (Partition.mk meta ds.flatten 0).cells
      = (ds.map fun d => (Partition.mk meta d 0).cells).flatten := by
  unfold Partition.cells
  rw [List.map_flatten]

/-- Claim C6: when every per-partition fetch succeeds, draining the
partition stream yields one partition per index in ascending order;
streaming all rows equals the concatenation of the per-partition decoded
rows; concatenating all partitions yields a single partition whose decoded
rows are that same sequence; and the row counts add up. -/
theorem streaming_concat_row_equivalence (resp : QueryResponse)
    (fetch : Fetcher) (t : Nat → StringTable)
    (ht : ∀ i, 1 ≤ i → i < resp.numPartitions → fetch i = .ok (t i)) :
    ∃ ps : List Partition,
      resp.partitionsList fetch = .ok ps ∧
      ps.length = resp.numPartitions ∧
      (∀ i (h : i < ps.length),
        (ps.get ⟨i, h⟩).index = i ∧
        (resp.partitionFetch fetch i).1 = .ok (some (ps.get ⟨i, h⟩))) ∧
      resp.rowsList fetch = .ok ((ps.map Partition.cells).flatten) ∧
      ∃ cp : Partition,
        resp.concatPartitions fetch = .ok cp ∧
        cp.cells = (ps.map Partition.cells).flatten ∧
        cp.numRows = (ps.map Partition.numRows).sum ∧
        ((ps.map Partition.cells).flatten).length
          = (ps.map Partition.numRows).sum := by
  have hps : resp.partitionsList fetch
      = .ok ((List.range resp.numPartitions).map (partAt resp t)) := by
    unfold QueryResponse.partitionsList
    rw [seqPartitions_ok resp fetch t ht _ (fun i hi => List.mem_range.mp hi)]
    simp only [Except.map, List.filterMap_map, Function.comp_def, id_eq,
      List.filterMap_some]
    exact congrArg Except.ok (congrFun (List.filterMap_eq_map (partAt resp t)) _)
  refine ⟨(List.range resp.numPartitions).map (partAt resp t), hps, by simp, ?_, ?_, ?_⟩
  · intro i h
    have hi : i < resp.numPartitions := by simpa using h
    have hget : ((List.range resp.numPartitions).map (partAt resp t)).get ⟨i, h⟩
        = partAt resp t i := by
      simp [List.get_eq_getElem, List.getElem_map, List.getElem_range]
    refine ⟨?_, ?_⟩
    · rw [hget]
      unfold partAt
      by_cases h0 : i = 0
      · rw [if_pos h0]
        exact h0.symm
      · rw [if_neg h0]
    · rw [hget, partitionFetch_ok resp fetch t ht i hi]
  · unfold QueryResponse.rowsList
    rw [hps]
    rfl
  · refine ⟨⟨resp.resultSetMetaData,
      ((((List.range resp.numPartitions).map (partAt resp t))).map
        Partition.data).flatten, 0⟩, ?_, ?_, ?_, ?_⟩
    · unfold QueryResponse.concatPartitions
      rw [hps]
      rfl
    · rw [cells_concat]
      congr 1
      rw [List.map_map]
      refine List.map_congr_left fun p hp => ?_
      rcases List.mem_map.mp hp with ⟨i, _, rfl⟩
      unfold partAt
      by_cases h0 : i = 0 <;> simp [h0] <;> rfl
    · unfold Partition.numRows
      rw [List.length_flatten, List.map_map]
      rfl
    · rw [List.length_flatten, List.map_map]
      congr 1
      refine List.map_congr_left fun p _ => ?_
      unfold Partition.cells Partition.numRows
      simp


/-- Witness for `streaming_concat_row_equivalence` at a concrete
two-partition response whose second partition is served by the oracle. -/
theorem streaming_concat_witness :
    ∃ ps : List Partition,
      (QueryResponse.mk
          ⟨2, [⟨"C", "", "", "", none, none, .Text, none, false⟩], [(), ()]⟩
          [[some "a"]] "url").partitionsList
          (fun _ => .ok [[some "b"]]) = .ok ps ∧
      ps.length = (QueryResponse.mk
          ⟨2, [⟨"C", "", "", "", none, none, .Text, none, false⟩], [(), ()]⟩
          [[some "a"]] "url").numPartitions ∧
      (∀ i (h : i < ps.length),
        (ps.get ⟨i, h⟩).index = i ∧
        ((QueryResponse.mk
          ⟨2, [⟨"C", "", "", "", none, none, .Text, none, false⟩], [(), ()]⟩
          [[some "a"]] "url").partitionFetch (fun _ => .ok [[some "b"]]) i).1
          = .ok (some (ps.get ⟨i, h⟩))) ∧
      (QueryResponse.mk
          ⟨2, [⟨"C", "", "", "", none, none, .Text, none, false⟩], [(), ()]⟩
          [[some "a"]] "url").rowsList (fun _ => .ok [[some "b"]])
        = .ok ((ps.map Partition.cells).flatten) ∧
      ∃ cp : Partition,
        (QueryResponse.mk
            ⟨2, [⟨"C", "", "", "", none, none, .Text, none, false⟩], [(), ()]⟩
            [[some "a"]] "url").concatPartitions (fun _ => .ok [[some "b"]])
          = .ok cp ∧
        cp.cells = (ps.map Partition.cells).flatten ∧
        cp.numRows = (ps.map Partition.numRows).sum ∧
        ((ps.map Partition.cells).flatten).length
          = (ps.map Partition.numRows).sum :=
  streaming_concat_row_equivalence _ _ (fun _ => [[some "b"]])
    (fun _ _ _ => rfl)
